import Mathlib

/-!
Verification of the betta-backend incremental ownership indexer
(`src/server.js`, second document: the multi-RPC indexer server).

The development shallowly embeds the JavaScript source into Lean:

* block numbers and token identifiers are modelled as `Nat` (the source uses
  JavaScript `BigInt`, which is exact arbitrary-precision arithmetic; all
  values involved are non-negative);
* the JavaScript `Set` of decimal token-id strings is modelled as a
  duplicate-free `List String` in insertion order (`Set` iteration order);
* the remote JSON-RPC provider is modelled as an `Oracle`: a chain-head
  answer plus a response for every `eth_getLogs` filter; a `Query` stands
  for the filter `{address: BETTA_CONTRACT, fromBlock, toBlock, topics}`
  built by `getTransferLogs`, identified by its variable parts (the block
  range, which of the from/to topic slots holds the wallet topic, and the
  wallet address);
* `fetch`/`await` failure and `throw` are modelled with `Except String`;
* `Array.prototype.sort` with the comparator `(a, b) => Number(a) - Number(b)`
  is modelled as a stable insertion sort keyed on the IEEE-754 double
  rounding of the decimal value of each string (ECMAScript sort is stable,
  and the sign of the float subtraction of two distinct doubles equals the
  comparison of their exact values).
-/

/-- Decidable equality for `Except`, used to evaluate the embedding at
concrete inputs. -/
instance exceptDecEq {ε α : Type} [DecidableEq ε] [DecidableEq α] :
    DecidableEq (Except ε α)
  | .error e1, .error e2 =>
    if h : e1 = e2 then isTrue (by rw [h]) else isFalse (by simp [h])
  | .error _, .ok _ => isFalse (by simp)
  | .ok _, .error _ => isFalse (by simp)
  | .ok a1, .ok a2 =>
    if h : a1 = a2 then isTrue (by rw [h]) else isFalse (by simp [h])

/-! ### Character and string primitives

Core `String.toLower`, `String.trim` and `String.toNat?` do not reduce in
the kernel, so equivalents are defined structurally over `List Char`.
They model the ECMAScript operations on the ASCII strings that occur in
this program (addresses, hex topics, decimal numerals, error messages). -/

/-- ASCII lower-casing of one character, as `String.prototype.toLowerCase`
acts on the ASCII range. -/
def charLower (c : Char) : Char :=
  let n := c.toNat
  if 65 ≤ n && n ≤ 90 then Char.ofNat (n + 32) else c

/-- Model of `String.prototype.toLowerCase` on ASCII strings. -/
def lowerStr (s : String) : String :=
  ⟨s.data.map charLower⟩

/-- ASCII whitespace test, for modelling `String.prototype.trim`. -/
def isSpaceChar (c : Char) : Bool :=
  c == ' ' || c == '\t' || c == '\n' || c == '\r'

/-- Model of `String.prototype.trim` (leading and trailing whitespace
removed). -/
def trimStr (s : String) : String :=
  ⟨((s.data.dropWhile isSpaceChar).reverse.dropWhile isSpaceChar).reverse⟩

/-- Whether `pat` occurs at the head of `l`. -/
def startsWithL : List Char → List Char → Bool
  | _, [] => true
  | [], _ :: _ => false
  | a :: as, b :: bs => a == b && startsWithL as bs

/-- Whether `pat` occurs contiguously anywhere in `l`; model of
`String.prototype.includes`. -/
def containsL : List Char → List Char → Bool
  | [], pat => pat.isEmpty
  | l@(_ :: rest), pat => startsWithL l pat || containsL rest pat

/-- Model of `String.prototype.includes`. -/
def strContains (s pat : String) : Bool :=
  containsL s.data pat.data

/-- Decimal-digit parsing: `decDigits cs acc` folds decimal digits onto
`acc`, failing on any non-digit. `decDigits s.data 0` models the decimal
branch of JavaScript string-to-number conversions (`BigInt(s)`,
`Number(s)`) on digit-only strings; the empty string yields 0, as in
ECMAScript. -/
def decDigits : List Char → Nat → Option Nat
  | [], acc => some acc
  | c :: cs, acc =>
    let n := c.toNat
    if 48 ≤ n && n ≤ 57 then decDigits cs (acc * 10 + (n - 48)) else none

/-- Value of one hexadecimal digit character. -/
def hexVal? (c : Char) : Option Nat :=
  let n := c.toNat
  if 48 ≤ n && n ≤ 57 then some (n - 48)
  else if 97 ≤ n && n ≤ 102 then some (n - 87)
  else if 65 ≤ n && n ≤ 70 then some (n - 55)
  else none

/-- Hexadecimal-digit parsing, failing on any non-hex-digit character. -/
def hexDigitsVal : List Char → Nat → Option Nat
  | [], acc => some acc
  | c :: cs, acc =>
    match hexVal? c with
    | some v => hexDigitsVal cs (acc * 16 + v)
    | none => none

/-- Model of JavaScript `BigInt(s)` on the numeral strings this program
feeds it (a `0x`/`0X` hexadecimal literal such as a 32-byte log topic, or
a decimal numeral); `none` models a thrown `SyntaxError`. -/
def parseBigInt? (s : String) : Option Nat :=
  match s.data with
  | '0' :: 'x' :: rest => if rest.isEmpty then none else hexDigitsVal rest 0
  | '0' :: 'X' :: rest => if rest.isEmpty then none else hexDigitsVal rest 0
  | l => decDigits l 0

/-- Decimal digit character for a value below 10. -/
def decDigitChar (n : Nat) : Char :=
  Char.ofNat (48 + n)

/-- Fueled decimal printing helper. -/
def natToDecAux : Nat → Nat → List Char
  | 0, _ => []
  | fuel + 1, n =>
    if n < 10 then [decDigitChar n] else natToDecAux fuel (n / 10) ++ [decDigitChar (n % 10)]

/-- Model of JavaScript `BigInt.prototype.toString` / `String(n)` for the
non-negative integers this program prints (decimal, no sign). -/
def natToDec (n : Nat) : String :=
  ⟨natToDecAux (n + 1) n⟩

/-- Lowercase hexadecimal digit character for a value below 16. -/
def hexDigitChar (n : Nat) : Char :=
  Char.ofNat (if n < 10 then 48 + n else 87 + n)

/-- Fueled hexadecimal printing helper. -/
def toHexAux : Nat → Nat → List Char
  | 0, _ => []
  | fuel + 1, n =>
    if n < 16 then [hexDigitChar n] else toHexAux fuel (n / 16) ++ [hexDigitChar (n % 16)]

/-- Left-pad a hex-digit list with zeros to 64 characters, as `pad64No0x`
(`hexNo0x.padStart(64, "0")`) does in the source. -/
def pad64 (l : List Char) : List Char :=
  List.replicate (64 - l.length) '0' ++ l

/-- The 32-byte log topic carrying a token id: `0x` followed by the
zero-padded hexadecimal of the id, as an ERC-721 `Transfer` log's fourth
topic is encoded on the wire. -/
def tokenTopic (tid : Nat) : String :=
  ⟨'0' :: 'x' :: pad64 (toHexAux (tid + 1) tid)⟩

/-! ### Error classification (`shouldFailover`, src/server.js lines 341-355) -/

/-- Embedding of `shouldFailover(errMsg)`: lowercases the message and
tests it for the ten hard-coded substrings. -/
def shouldFailover (errMsg : String) : Bool :=
  let s := lowerStr errMsg
  strContains s "no backend is currently healthy" ||
  strContains s "http 503" ||
  strContains s "http 502" ||
  strContains s "http 504" ||
  strContains s "rate" ||
  strContains s "timeout" ||
  strContains s "timed out" ||
  strContains s "gateway" ||
  strContains s "temporarily" ||
  strContains s "busy"

/-- Classifier following the specification's words (spec §4.1): an error is
transient if it carries signals for HTTP 502/503/504, rate-limiting,
timeout, or generic "temporarily unavailable" phrasing; every other error
is fatal. Each enumerated category is read as the presence of its literal
signal phrase in the (lowercased) message. This definition follows the
specification, not the source, and exists to be compared with
`shouldFailover`. -/
def specTransientClassify (errMsg : String) : Bool :=
  let s := lowerStr errMsg
  strContains s "http 502" ||
  strContains s "http 503" ||
  strContains s "http 504" ||
  strContains s "rate limit" ||
  strContains s "timeout" ||
  strContains s "timed out" ||
  strContains s "temporarily unavailable"

/-! ### The RPC retry loop (`rpc`, src/server.js lines 357-397)

The loop body (HTTP POST, status check, JSON parse, JSON-RPC error check)
either produces a result or throws an error message; an endpoint's
behaviour across the call is therefore a function from the attempt number
(0 = immediate, 1 = after the 350 ms backoff) to an outcome. The `sleep`
backoff has no observable effect in this model. -/

/-- Outcome of one attempt of the `rpc` loop body against one endpoint. -/
inductive RpcOutcome
  | ok (v : String)
  | err (msg : String)
deriving DecidableEq, Repr

/-- Behaviour of one endpoint: outcome of its attempt 0 and attempt 1. -/
def EndpointBehavior : Type := Nat → RpcOutcome

/-- Whether the outcome is an error that `shouldFailover` classifies as
transient. -/
def isTransientErr : RpcOutcome → Bool
  | .ok _ => false
  | .err e => shouldFailover e

/-- Message of an error outcome (placeholder for a success outcome). -/
def errMsgOf : RpcOutcome → String
  | .ok _ => ""
  | .err e => e

/-- Embedding of the body of `rpc` after `pickRpcUrlsRoundRobin`: the
nested `for (const url of urls) for (const backoff of [0, 350])` loop.
`idx` numbers the endpoints of the rotation; `lastErr` is the `lastErr`
variable. Returns the list of `(endpoint, attempt)` pairs tried, in
order, together with the returned result or thrown error. On a transient
error the loop continues (second attempt, then next endpoint); on any
other error it throws at once; after all endpoints it throws
`lastErr || new Error("RPC_FAILED")`. -/
def rpcLoopAux : List EndpointBehavior → Nat → Option String →
    List (Nat × Nat) × Except String String
  | [], _, lastErr => ([], .error (lastErr.getD "RPC_FAILED"))
  | u :: rest, idx, _ =>
    match u 0 with
    | .ok v => ([(idx, 0)], .ok v)
    | .err e0 =>
      if shouldFailover e0 then
        match u 1 with
        | .ok v => ([(idx, 0), (idx, 1)], .ok v)
        | .err e1 =>
          if shouldFailover e1 then
            let r := rpcLoopAux rest (idx + 1) (some e1)
            ((idx, 0) :: (idx, 1) :: r.1, r.2)
          else ([(idx, 0), (idx, 1)], .error e1)
      else ([(idx, 0)], .error e0)

/-- Embedding of one `rpc(method, params)` call, given the endpoint
rotation produced by `pickRpcUrlsRoundRobin` as a list of endpoint
behaviours. -/
def rpcCall (urls : List EndpointBehavior) : List (Nat × Nat) × Except String String :=
  rpcLoopAux urls 0 none

/-! ### Logs, queries and the provider oracle -/

/-- Which topic slot of the `eth_getLogs` filter carries the wallet
topic: slot 1 (`fromAddr`, outgoing) or slot 2 (`toAddr`, incoming). -/
inductive Dir
  | incoming
  | outgoing
deriving DecidableEq, Repr

/-- The variable parts of the `eth_getLogs` filter built by
`getTransferLogs` (the contract address and `TRANSFER_SIG` topic are
fixed). -/
structure Query where
  fromBlock : Nat
  toBlock : Nat
  dir : Dir
  wallet : String
deriving DecidableEq, Repr

/-- A raw log record as consumed by `tokenIdFromLog`: only `topics[3]` is
inspected, present (`some`) or absent (`none`). -/
structure Log where
  topic3 : Option String
deriving DecidableEq, Repr

/-- The remote provider as observed through `rpc`: the
`eth_blockNumber` answer and an `eth_getLogs` answer per filter, each
either a result or a raised error. -/
structure Oracle where
  latestBlock : Except String Nat
  getLogs : Query → Except String (List Log)

/-- Embedding of `tokenIdFromLog(log)` (src/server.js lines 421-429):
`topics[3]` absent or empty (falsy) gives `null`; otherwise `BigInt(t3)`,
with a thrown parse error caught to `null`. -/
def tokenIdFromLog (lg : Log) : Option Nat :=
  match lg.topic3 with
  | none => none
  | some t3 => if t3 = "" then none else parseBigInt? t3

/-! ### The owned-token set and cache -/

/-- Adding to the `Set` of token-id strings: JavaScript `Set.add` keeps
insertion order and ignores a present element. -/
def setAdd (s : List String) (x : String) : List String :=
  if x ∈ s then s else s ++ [x]

/-- Removing from the `Set`: `Set.delete` removes the element, keeping
the order of the others. -/
def setDelete (s : List String) (x : String) : List String :=
  s.filter (fun y => y != x)

/-- `new Set(list)`: deduplication keeping the first occurrence of each
element, in insertion order. -/
def setOfList (l : List String) : List String :=
  l.foldl setAdd []

/-- Fueled bit-length: `bitLenAux fuel n` is one plus the index of the
highest set bit of `n` (and `n` itself for `n < 2`), provided `fuel`
bounds the recursion depth. -/
def bitLenAux : Nat → Nat → Nat
  | 0, _ => 0
  | fuel + 1, n => if n < 2 then n else 1 + bitLenAux fuel (n / 2)

/-- Bit length of a natural number, with fuel ample for any value below
`2 ^ 4095` (token ids are 256-bit on the wire). -/
def bitLen (n : Nat) : Nat :=
  bitLenAux 4096 n

/-- Round-to-nearest-even of a natural number to a 53-bit significand:
the value of the IEEE-754 double nearest to `n`. Numbers below `2 ^ 53`
are exact; above, the low `e` bits are rounded away (ties to even). -/
def floatRound (n : Nat) : Nat :=
  if n < 2 ^ 53 then n
  else
    let e := bitLen n - 53
    let q := n / 2 ^ e
    let r := n % 2 ^ e
    let half := 2 ^ (e - 1)
    if half < r || (r == half && q % 2 == 1) then (q + 1) * 2 ^ e else q * 2 ^ e

/-- Sort key of one stored token-id string under the source comparator
`(a, b) => Number(a) - Number(b)`: the double rounding of its decimal
value (`Number` of a decimal numeral string; the empty string gives 0). -/
def jsNumberKey (s : String) : Nat :=
  floatRound ((decDigits s.data 0).getD 0)

/-- Stable insertion of `x` into a key-sorted list: `x` is placed before
the first element whose key is at least the key of `x`. -/
def insertByKey (x : String) : List String → List String
  | [] => [x]
  | y :: ys => if jsNumberKey x ≤ jsNumberKey y then x :: y :: ys else y :: insertByKey x ys

/-- Model of `Array.from(set).sort((a, b) => Number(a) - Number(b))` as a
stable sort on `jsNumberKey` (ECMAScript sort is stable; the comparator
sign equals the comparison of the rounded doubles). -/
def sortTokens : List String → List String
  | [] => []
  | x :: xs => insertByKey x (sortTokens xs)

/-- A wallet's record in `wallet-owned.json`: `lastScannedBlock` is the
decimal string `String(latest)` or `null`, modelled as `Option Nat`
(decimal printing and `BigInt` parsing round-trip exactly); `tokenIds`
is the stored array of decimal token-id strings. -/
structure Entry where
  lastScannedBlock : Option Nat
  tokenIds : List String
deriving DecidableEq, Repr

/-- The `ownedCache` object: wallet key to entry, modelled as an
association list. -/
def Cache : Type := List (String × Entry)

/-- Reading `ownedCache[w]`. -/
def cacheGet (c : Cache) (w : String) : Option Entry :=
  List.lookup w c

/-- Writing `ownedCache[w] = e` (other keys untouched). -/
def cacheSet (c : Cache) (w : String) (e : Entry) : Cache :=
  (w, e) :: List.filter (fun p => p.1 != w) c

/-! ### The indexer (`updateOwnedTokensForWallet`, src/server.js lines 434-493) -/

/-- Embedding of the wallet validator `isHexAddress` (the regular
expression `^0x[a-fA-F0-9]{40}$`; trimming happens before the call in
`updateOwnedTokensForWallet`). -/
def isHexAddress (s : String) : Bool :=
  match s.data with
  | '0' :: 'x' :: rest => rest.length == 40 && rest.all (fun c => (hexVal? c).isSome)
  | _ => false

/-- The configured environment of the indexer: `BETTA_CONTRACT`
(empty when the variable is unset), `START_BLOCK` and `LOG_CHUNK`. -/
structure Config where
  contract : String
  startBlock : Nat
  logChunk : Nat
deriving DecidableEq, Repr

/-- The scan start: `START_BLOCK`, raised to `lastScannedBlock + 1` when
the latter is larger (src/server.js lines 443-447). -/
def startOf (cfg : Config) (lastScanned : Option Nat) : Nat :=
  match lastScanned with
  | none => cfg.startBlock
  | some prev => if prev + 1 > cfg.startBlock then prev + 1 else cfg.startBlock

/-- Fueled enumeration of the chunk ranges visited by
`for (let from = start; from <= latest; from += LOG_CHUNK)` with
`to = min(from + LOG_CHUNK - 1, latest)`. -/
def chunkRangesAux (chunk : Nat) : Nat → Nat → Nat → List (Nat × Nat)
  | 0, _, _ => []
  | fuel + 1, start, latest =>
    if start ≤ latest then
      (start, min (start + chunk - 1) latest) :: chunkRangesAux chunk fuel (start + chunk) latest
    else []

/-- The consecutive chunk ranges of the scan loop over
`[start, latest]`; the fuel `latest + 1 - start` bounds the number of
iterations whenever `chunk ≥ 1`. -/
def chunkRanges (chunk start latest : Nat) : List (Nat × Nat) :=
  chunkRangesAux chunk (latest + 1 - start) start latest

/-- Folding one `eth_getLogs` response into the set with `Set.add`
(`for (const lg of logsTo) { const tid = tokenIdFromLog(lg); if (tid !== null) set.add(tid.toString()); }`). -/
def applyAddLogs (set : List String) (logs : List Log) : List String :=
  logs.foldl (fun s lg =>
    match tokenIdFromLog lg with
    | some tid => setAdd s (natToDec tid)
    | none => s) set

/-- Folding one `eth_getLogs` response into the set with `Set.delete`. -/
def applyDelLogs (set : List String) (logs : List Log) : List String :=
  logs.foldl (fun s lg =>
    match tokenIdFromLog lg with
    | some tid => setDelete s (natToDec tid)
    | none => s) set

/-- One iteration of the scan loop over one chunk range: fetch the
incoming logs (`toAddr = w`) and add their token ids, then the outgoing
logs (`fromAddr = w`) and delete theirs. Returns the queries issued and
the new set, or the error thrown by a failed fetch. -/
def runChunk (O : Oracle) (w : String) (r : Nat × Nat) (set : List String) :
    List Query × Except String (List String) :=
  match O.getLogs ⟨r.1, r.2, Dir.incoming, w⟩ with
  | .error e => ([⟨r.1, r.2, Dir.incoming, w⟩], .error e)
  | .ok logsTo =>
    match O.getLogs ⟨r.1, r.2, Dir.outgoing, w⟩ with
    | .error e => ([⟨r.1, r.2, Dir.incoming, w⟩, ⟨r.1, r.2, Dir.outgoing, w⟩], .error e)
    | .ok logsFrom =>
      ([⟨r.1, r.2, Dir.incoming, w⟩, ⟨r.1, r.2, Dir.outgoing, w⟩],
        .ok (applyDelLogs (applyAddLogs set logsTo) logsFrom))

/-- The scan loop over a list of chunk ranges, threading the set and
collecting the queries issued; the first thrown error aborts the loop. -/
def runChunks (O : Oracle) (w : String) : List (Nat × Nat) → List String →
    List Query × Except String (List String)
  | [], set => ([], .ok set)
  | r :: rs, set =>
    match runChunk O w r set with
    | (qs, .error e) => (qs, .error e)
    | (qs, .ok set1) =>
      let rest := runChunks O w rs set1
      (qs ++ rest.1, rest.2)

/-- Result of one `updateOwnedTokensForWallet` call: the `ownedCache`
after the call (writes happen only through `writeJsonAtomic`, which the
source performs together with the in-memory assignment), the log queries
issued, and the returned entry or thrown error. -/
structure RunResult where
  cache : Cache
  queries : List Query
  result : Except String Entry

/-- Embedding of `updateOwnedTokensForWallet(wallet)` (src/server.js
lines 434-493): guard the contract configuration, normalize and validate
the wallet, read the prior entry, fetch the chain head, compute the scan
start, seed the set, take the nothing-to-scan fast path when
`start > latest`, otherwise run the chunk loop and persist the sorted
result. Every error path leaves the cache exactly as it was. -/
def updateOwnedTokensForWallet (cfg : Config) (O : Oracle) (cache : Cache)
    (wallet : String) : RunResult :=
  if cfg.contract = "" then ⟨cache, [], .error "BETTA_CONTRACT_ADDRESS not set"⟩
  else
    let w := lowerStr (trimStr wallet)
    if isHexAddress w = false then ⟨cache, [], .error "INVALID_WALLET"⟩
    else
      let entry := (cacheGet cache w).getD ⟨none, []⟩
      match O.latestBlock with
      | .error e => ⟨cache, [], .error e⟩
      | .ok latest =>
        let start := startOf cfg entry.lastScannedBlock
        let set := setOfList entry.tokenIds
        if latest < start then
          let newEntry : Entry := ⟨some latest, sortTokens set⟩
          ⟨cacheSet cache w newEntry, [], .ok newEntry⟩
        else
          match runChunks O w (chunkRanges cfg.logChunk start latest) set with
          | (qs, .error e) => ⟨cache, qs, .error e⟩
          | (qs, .ok finalSet) =>
            let newEntry : Entry := ⟨some latest, sortTokens finalSet⟩
            ⟨cacheSet cache w newEntry, qs, .ok newEntry⟩

/-! ### The `/owned` route (src/server.js lines 579-627) -/

/-- The observable response of `GET /owned`: the 400 invalid-wallet
reply, the 500 missing-contract reply, the cached fast-path reply
(`cached: true`), the fresh reply after a refresh (`cached: false`), or
the 500 internal-error reply carrying the thrown message. -/
inductive OwnedResponse
  | invalidWallet
  | missingContract
  | cachedHit (tokenIds : List String) (lastScannedBlock : Option Nat)
  | fresh (tokenIds : List String) (lastScannedBlock : Option Nat)
  | internalError (msg : String)
deriving DecidableEq, Repr

/-- The tail of the `/owned` handler past the cache check: await the
refresh and reply `cached: false`, or reply 500 with the thrown
message. -/
def ownedRefresh (cfg : Config) (O : Oracle) (cache : Cache) (wallet : String) :
    Cache × OwnedResponse :=
  let r := updateOwnedTokensForWallet cfg O cache wallet
  match r.result with
  | .ok e => (r.cache, .fresh e.tokenIds e.lastScannedBlock)
  | .error m => (r.cache, .internalError m)

/-- Embedding of the `GET /owned` handler: normalize and validate the
query wallet, guard the contract configuration, take the cached fast
path when the cached entry exists and its `tokenIds` array is non-empty,
otherwise refresh. -/
def ownedRoute (cfg : Config) (O : Oracle) (cache : Cache) (q : String) :
    Cache × OwnedResponse :=
  let wallet := lowerStr (trimStr q)
  if isHexAddress wallet = false then (cache, .invalidWallet)
  else if cfg.contract = "" then (cache, .missingContract)
  else
    match cacheGet cache wallet with
    | some c =>
      if 0 < c.tokenIds.length then (cache, .cachedHit c.tokenIds c.lastScannedBlock)
      else ownedRefresh cfg O cache wallet
    | none => ownedRefresh cfg O cache wallet

/-! ### Transfer events and the honest chain oracle

For claims about a fixed history of transfer events, a chain is a list
of transfer events (in ascending block order), and the honest oracle
answers every filter with exactly the matching events, their token ids
encoded as 32-byte topics. -/

/-- A transfer event of the contract: the decoded content of one
`Transfer(address,address,uint256)` log record. -/
structure TransferEvent where
  fromAddress : String
  toAddress : String
  tokenId : Nat
  blockNumber : Nat
deriving DecidableEq, Repr

/-- Whether an event matches an `eth_getLogs` filter: its block lies in
the range and the filtered topic slot equals the wallet. -/
def eventMatches (q : Query) (ev : TransferEvent) : Bool :=
  q.fromBlock ≤ ev.blockNumber && ev.blockNumber ≤ q.toBlock &&
  (match q.dir with
   | Dir.incoming => ev.toAddress == q.wallet
   | Dir.outgoing => ev.fromAddress == q.wallet)

/-- The log records a correct provider returns for a filter, given the
full event history. -/
def chainLogs (chain : List TransferEvent) (q : Query) : List Log :=
  (chain.filter (eventMatches q)).map (fun ev => ⟨some (tokenTopic ev.tokenId)⟩)

/-- The honest oracle for a fixed chain: head `head`, logs from the
history, no failures. -/
def chainOracle (chain : List TransferEvent) (head : Nat) : Oracle :=
  ⟨.ok head, fun q => .ok (chainLogs chain q)⟩

/-- Applying one transfer event to the owned set in the reference
block-order semantics of the specification (§3): a transfer to the
wallet adds its token id, a transfer from the wallet removes it. This
definition follows the specification's words, to be compared with the
per-chunk processing of the source. -/
def applyEventInBlockOrder (w : String) (set : List String) (ev : TransferEvent) :
    List String :=
  if ev.toAddress = w then setAdd set (natToDec ev.tokenId)
  else if ev.fromAddress = w then setDelete set (natToDec ev.tokenId)
  else set

/-- The reference semantics of the specification (§3): fold the events
one at a time, in the (ascending block) order of the list, so the last
event touching a token in block order wins. -/
def specBlockOrderFold (w : String) (set : List String)
    (events : List TransferEvent) : List String :=
  events.foldl (applyEventInBlockOrder w) set

/-! ### Concrete fixtures for evaluated instances -/

/-- A well-formed wallet address. -/
def walletA : String := "0xaaaaaaaaaaaaaaaaaaaaaaaaaaaaaaaaaaaaaaaa"

/-- A second well-formed wallet address. -/
def walletB : String := "0xbbbbbbbbbbbbbbbbbbbbbbbbbbbbbbbbbbbbbbbb"

/-- The zero address (mint source). -/
def walletZero : String := "0x0000000000000000000000000000000000000000"

/-- A history in ascending block order: token 7 is minted to `walletA`
at block 5, sent away at block 10, and bought back at block 20, so at
the head (block 25) the wallet owns token 7. -/
def chainOutThenIn : List TransferEvent :=
  [⟨walletZero, walletA, 7, 5⟩, ⟨walletA, walletB, 7, 10⟩, ⟨walletB, walletA, 7, 20⟩]

/-- A configuration whose chunk size covers blocks 5, 10 and 20 in one
chunk. -/
def cfgWide : Config := ⟨"0xc", 1, 100⟩

/-- A configuration that splits block 10 and block 20 into different
chunks (`[1, 15]` and `[16, 25]`). -/
def cfgNarrow : Config := ⟨"0xc", 1, 15⟩

/-- An oracle whose chain head regressed below a previously scanned
block (as happens when rotated RPC endpoints are out of sync) and that
reports no logs. -/
def oracleHead (head : Nat) : Oracle := ⟨.ok head, fun _ => .ok []⟩

/-- An oracle whose chain-head query throws. -/
def oracleHeadDown : Oracle := ⟨.error "boom", fun _ => .ok []⟩

/-- A cache holding two token ids above `2 ^ 53` whose doubles coincide,
stored in descending numeric order. -/
def cacheBigIds : Cache :=
  [(walletA, ⟨some 100, ["9007199254740993", "9007199254740992"]⟩)]

/-- An endpoint that always answers with a transient error. -/
def endpointTransient (msg : String) : EndpointBehavior := fun _ => .err msg

/-- The query used in the malformed-log witness. -/
def queryC8 : Query := ⟨1, 5, Dir.incoming, walletA⟩

/-- An oracle returning one malformed log (missing `topics[3]`) for
`queryC8` and nothing elsewhere. -/
def oracleWithBadLog : Oracle :=
  ⟨.ok 5, fun q => if q = queryC8 then .ok [⟨none⟩] else .ok []⟩

/-- The same oracle with the malformed record dropped. -/
def oracleClean : Oracle := ⟨.ok 5, fun _ => .ok []⟩

/-! ## Theorems -/

/-! ### Substring facts used for the error classifier -/

theorem startsWithL_of_append (p : List Char) :
    ∀ (l q : List Char), startsWithL l (p ++ q) = true → startsWithL l p = true := by
  induction p with
  | nil => intro l q _; cases l <;> rfl
  | cons b bs ih =>
    intro l q h
    cases l with
    | nil => simp [startsWithL] at h
    | cons a as =>
      simp only [List.cons_append, startsWithL, Bool.and_eq_true] at h ⊢
      exact ⟨h.1, ih as q h.2⟩

theorem containsL_of_append (l p q : List Char) :
    containsL l (p ++ q) = true → containsL l p = true := by
  induction l with
  | nil =>
    simp only [containsL, List.isEmpty_iff, List.append_eq_nil]
    intro h
    simp [h.1]
  | cons c rest ih =>
    simp only [containsL, Bool.or_eq_true]
    rintro (h | h)
    · exact Or.inl (startsWithL_of_append p (c :: rest) q h)
    · exact Or.inr (ih h)

theorem strContains_of_append (s p q : String) :
    strContains s (p ++ q) = true → strContains s p = true := by
  intro h
  exact containsL_of_append s.data p.data q.data (by simpa [strContains, String.data_append] using h)

/-! ### Claim C6: the error classifier -/

/-- C6 counterexample: the message of an application-level rejection
(an unsupported-method error) carries none of the signal categories the
claim enumerates for transient errors, yet `shouldFailover` classifies
it as transient (the substring heuristic fires on the `rate` inside
`migrate`), so it does not abort without failover. Hence "every other
error ... is classified fatal" is false of the code. -/
theorem claim_C6_counterexample :
    shouldFailover "unsupported method: migrate" = true ∧
    specTransientClassify "unsupported method: migrate" = false := by
  decide

/-- C6 amended: every error that carries the claim's enumerated signals
(HTTP 502/503/504, a rate limit, a timeout, or "temporarily
unavailable" phrasing) is classified transient by `shouldFailover`, but
the converse fails: the classifier is a substring heuristic that also
fires on the bare fragments `rate`, `gateway`, `busy`, `temporarily`
and `no backend is currently healthy`, so some malformed-request or
application-level rejections are treated as transient rather than
fatal. -/
theorem claim_C6_amended (msg : String) :
    specTransientClassify msg = true → shouldFailover msg = true := by
  unfold specTransientClassify shouldFailover
  simp only [Bool.or_eq_true]
  intro h
  rcases h with ((((((h | h) | h) | h) | h) | h) | h)
  · simp [h]
  · simp [h]
  · simp [h]
  · have hc := strContains_of_append (lowerStr msg) "rate" " limit" h
    simp [hc]
  · simp [h]
  · simp [h]
  · have hc := strContains_of_append (lowerStr msg) "temporarily" " unavailable" h
    simp [hc]

/-- Witness for `claim_C6_amended` at a concrete rate-limited message. -/
theorem claim_C6_amended_witness :
    shouldFailover "429: rate limit exceeded" = true :=
  claim_C6_amended "429: rate limit exceeded" (by decide)


/-! ### Claim C4: the RPC retry and failover policy -/

theorem rpcLoopAux_trace_length (urls : List EndpointBehavior) :
    ∀ (idx : Nat) (le : Option String),
      (rpcLoopAux urls idx le).1.length ≤ 2 * urls.length := by
  induction urls with
  | nil => intro idx le; simp [rpcLoopAux]
  | cons u rest ih =>
    intro idx le
    cases h0 : u 0 with
    | ok v => simp [rpcLoopAux, h0]; omega
    | err e0 =>
      cases hf0 : shouldFailover e0 with
      | false => simp [rpcLoopAux, h0, hf0]; omega
      | true =>
        cases h1 : u 1 with
        | ok v => simp [rpcLoopAux, h0, hf0, h1]
        | err e1 =>
          cases hf1 : shouldFailover e1 with
          | false => simp [rpcLoopAux, h0, hf0, h1, hf1]
          | true =>
            simp only [rpcLoopAux, h0, hf0, h1, hf1, if_true, List.length_cons]
            have := ih (idx + 1) (some e1)
            omega

theorem rpcLoopAux_trace_ge (urls : List EndpointBehavior) :
    ∀ (idx : Nat) (le : Option String) (p : Nat × Nat),
      p ∈ (rpcLoopAux urls idx le).1 → idx ≤ p.1 := by
  induction urls with
  | nil => intro idx le p hp; simp [rpcLoopAux] at hp
  | cons u rest ih =>
    intro idx le p hp
    cases h0 : u 0 with
    | ok v => simp [rpcLoopAux, h0] at hp; simp [hp]
    | err e0 =>
      cases hf0 : shouldFailover e0 with
      | false => simp [rpcLoopAux, h0, hf0] at hp; simp [hp]
      | true =>
        cases h1 : u 1 with
        | ok v =>
          simp [rpcLoopAux, h0, hf0, h1] at hp
          rcases hp with h | h <;> simp [h]
        | err e1 =>
          cases hf1 : shouldFailover e1 with
          | false =>
            simp [rpcLoopAux, h0, hf0, h1, hf1] at hp
            rcases hp with h | h <;> simp [h]
          | true =>
            simp only [rpcLoopAux, h0, hf0, h1, hf1, if_true, List.mem_cons] at hp
            rcases hp with h | h | h
            · simp [h]
            · simp [h]
            · have := ih (idx + 1) (some e1) p h
              omega

theorem rpcLoopAux_trace_count (urls : List EndpointBehavior) :
    ∀ (idx : Nat) (le : Option String) (i : Nat),
      ((rpcLoopAux urls idx le).1.filter (fun p => p.1 == i)).length ≤ 2 := by
  induction urls with
  | nil => intro idx le i; simp [rpcLoopAux]
  | cons u rest ih =>
    intro idx le i
    cases h0 : u 0 with
    | ok v =>
      simp only [rpcLoopAux, h0, List.filter_cons]
      cases hi : ((idx, 0).1 == i) <;> simp
    | err e0 =>
      cases hf0 : shouldFailover e0 with
      | false =>
        simp only [rpcLoopAux, h0, hf0, Bool.false_eq_true, if_false, List.filter_cons]
        cases hi : ((idx, 0).1 == i) <;> simp
      | true =>
        cases h1 : u 1 with
        | ok v =>
          simp only [rpcLoopAux, h0, hf0, h1, if_true, List.filter_cons]
          cases hi : ((idx, 0).1 == i) <;> cases hj : ((idx, 1).1 == i) <;> simp_all
        | err e1 =>
          cases hf1 : shouldFailover e1 with
          | false =>
            simp only [rpcLoopAux, h0, hf0, h1, hf1, Bool.false_eq_true, if_false, if_true,
              List.filter_cons]
            cases hi : ((idx, 0).1 == i) <;> cases hj : ((idx, 1).1 == i) <;> simp_all
          | true =>
            simp only [rpcLoopAux, h0, hf0, h1, hf1, if_true]
            by_cases hi : idx = i
            · subst hi
              have hrec : (rpcLoopAux rest (idx + 1) (some e1)).1.filter
                  (fun p => p.1 == idx) = [] := by
                rw [List.filter_eq_nil_iff]
                intro p hp
                have := rpcLoopAux_trace_ge rest (idx + 1) (some e1) p hp
                simp only [beq_iff_eq]
                omega
              simp [List.filter_cons, hrec]
            · have h2 := ih (idx + 1) (some e1) i
              have hb : ((idx : Nat) == i) = false := by simp [hi]
              simp only [List.filter_cons, hb]
              exact h2

theorem rpcLoopAux_exhausted (urls : List EndpointBehavior) :
    ∀ (idx : Nat) (le : Option String) (u : EndpointBehavior),
      (∀ v ∈ urls, isTransientErr (v 0) = true ∧ isTransientErr (v 1) = true) →
      urls.getLast? = some u →
      (rpcLoopAux urls idx le).2 = .error (errMsgOf (u 1)) := by
  induction urls with
  | nil => intro idx le u _ hlast; simp at hlast
  | cons v rest ih =>
    intro idx le u hall hlast
    obtain ⟨hv0, hv1⟩ := hall v (by simp)
    cases h0 : v 0 with
    | ok w => rw [h0] at hv0; simp [isTransientErr] at hv0
    | err e0 =>
      rw [h0] at hv0
      simp only [isTransientErr] at hv0
      cases h1 : v 1 with
      | ok w => rw [h1] at hv1; simp [isTransientErr] at hv1
      | err e1 =>
        rw [h1] at hv1
        simp only [isTransientErr] at hv1
        cases rest with
        | nil =>
          obtain rfl : v = u := by simpa using hlast
          simp [rpcLoopAux, h0, hv0, h1, hv1, errMsgOf]
        | cons w ws =>
          have hlast2 : (w :: ws).getLast? = some u := by
            simpa [List.getLast?_cons_cons] using hlast
          have := ih (idx + 1) (some e1) u
            (fun x hx => hall x (by simp [hx])) hlast2
          simp only [rpcLoopAux, h0, hv0, h1, hv1, if_true]
          exact this

theorem rpcLoopAux_fatal (u : EndpointBehavior) (post : List EndpointBehavior) (e : String) :
    ∀ (pre : List EndpointBehavior) (idx : Nat) (le : Option String),
      (∀ v ∈ pre, isTransientErr (v 0) = true ∧ isTransientErr (v 1) = true) →
      ((u 0 = .err e ∧ shouldFailover e = false) ∨
        (isTransientErr (u 0) = true ∧ u 1 = .err e ∧ shouldFailover e = false)) →
      (rpcLoopAux (pre ++ u :: post) idx le).2 = .error e := by
  intro pre
  induction pre with
  | nil =>
    intro idx le _ hu
    rcases hu with ⟨h0, hf⟩ | ⟨ht, h1, hf⟩
    · simp [rpcLoopAux, h0, hf]
    · cases h0 : u 0 with
      | ok w => rw [h0] at ht; simp [isTransientErr] at ht
      | err e0 =>
        rw [h0] at ht
        simp only [isTransientErr] at ht
        simp [rpcLoopAux, h0, ht, h1, hf]
  | cons v vs ih =>
    intro idx le hall hu
    obtain ⟨hv0, hv1⟩ := hall v (by simp)
    cases h0 : v 0 with
    | ok w => rw [h0] at hv0; simp [isTransientErr] at hv0
    | err e0 =>
      rw [h0] at hv0
      simp only [isTransientErr] at hv0
      cases h1 : v 1 with
      | ok w => rw [h1] at hv1; simp [isTransientErr] at hv1
      | err e1 =>
        rw [h1] at hv1
        simp only [isTransientErr] at hv1
        have := ih (idx + 1) (some e1) (fun x hx => hall x (by simp [hx])) hu
        simp only [List.cons_append, rpcLoopAux, h0, hv0, h1, hv1, if_true]
        exact this

/-- C4: for every remote call (modelled by the endpoint rotation `urls`
and the per-attempt behaviour of each endpoint), the `rpc` loop tries
each endpoint at most twice (one immediate attempt plus one retry)
before moving on, so at most `2 × endpoints` attempts happen in total;
the first error the classifier does not mark transient aborts the call
at once and is propagated verbatim; and when every attempt fails with a
transient error, the call fails carrying the message of the last
attempt (the second attempt of the last endpoint of the rotation). -/
theorem claim_C4_rpc_retry_policy (urls : List EndpointBehavior) :
    ((rpcCall urls).1.length ≤ 2 * urls.length ∧
      ∀ i, ((rpcCall urls).1.filter (fun p => p.1 == i)).length ≤ 2) ∧
    (∀ pre u post e, urls = pre ++ u :: post →
      (∀ v ∈ pre, isTransientErr (v 0) = true ∧ isTransientErr (v 1) = true) →
      ((u 0 = .err e ∧ shouldFailover e = false) ∨
        (isTransientErr (u 0) = true ∧ u 1 = .err e ∧ shouldFailover e = false)) →
      (rpcCall urls).2 = .error e) ∧
    (∀ u, (∀ v ∈ urls, isTransientErr (v 0) = true ∧ isTransientErr (v 1) = true) →
      urls.getLast? = some u →
      (rpcCall urls).2 = .error (errMsgOf (u 1))) := by
  refine ⟨⟨rpcLoopAux_trace_length urls 0 none, fun i => rpcLoopAux_trace_count urls 0 none i⟩,
    ?_, ?_⟩
  · intro pre u post e hurls hpre hu
    rw [hurls]
    exact rpcLoopAux_fatal u post e pre 0 none hpre hu
  · intro u hall hlast
    exact rpcLoopAux_exhausted urls 0 none u hall hlast

/-- Witness for `claim_C4_rpc_retry_policy`: two endpoints that only
ever answer with transient errors exhaust the budget and the call fails
carrying the last error observed. -/
theorem claim_C4_rpc_retry_policy_witness :
    (rpcCall [endpointTransient "timeout a", endpointTransient "busy b"]).2 =
      .error "busy b" :=
  (claim_C4_rpc_retry_policy [endpointTransient "timeout a", endpointTransient "busy b"]).2.2
    (endpointTransient "busy b")
    (by
      intro v hv
      simp only [List.mem_cons, List.mem_singleton] at hv
      rcases hv with rfl | rfl | h
      · exact ⟨by decide, by decide⟩
      · exact ⟨by decide, by decide⟩
      · simp at h)
    rfl

/-! ### Facts about the token set, the sort and the cache -/

theorem mem_setAdd (s : List String) (x y : String) :
    y ∈ setAdd s x ↔ y ∈ s ∨ y = x := by
  unfold setAdd
  by_cases h : x ∈ s
  · simp only [if_pos h]
    constructor
    · exact Or.inl
    · rintro (hy | rfl)
      · exact hy
      · exact h
  · simp [if_neg h]

theorem mem_setDelete (s : List String) (x y : String) :
    y ∈ setDelete s x ↔ y ∈ s ∧ y ≠ x := by
  simp [setDelete, List.mem_filter]

theorem setAdd_nodup (s : List String) (x : String) (h : s.Nodup) :
    (setAdd s x).Nodup := by
  unfold setAdd
  by_cases hx : x ∈ s
  · simpa [if_pos hx] using h
  · simp [if_neg hx, List.nodup_append, h, hx]

theorem setDelete_nodup (s : List String) (x : String) (h : s.Nodup) :
    (setDelete s x).Nodup :=
  h.filter _

theorem foldl_setAdd_mem (l : List String) :
    ∀ (acc : List String) (y : String), y ∈ l.foldl setAdd acc ↔ y ∈ acc ∨ y ∈ l := by
  induction l with
  | nil => intro acc y; simp
  | cons x xs ih =>
    intro acc y
    simp only [List.foldl_cons, ih, mem_setAdd, List.mem_cons]
    tauto

theorem mem_setOfList (l : List String) (y : String) :
    y ∈ setOfList l ↔ y ∈ l := by
  simp [setOfList, foldl_setAdd_mem]

theorem foldl_setAdd_nodup (l : List String) :
    ∀ (acc : List String), acc.Nodup → (l.foldl setAdd acc).Nodup := by
  induction l with
  | nil => intro acc h; simpa
  | cons x xs ih =>
    intro acc h
    exact ih (setAdd acc x) (setAdd_nodup acc x h)

theorem setOfList_nodup (l : List String) : (setOfList l).Nodup :=
  foldl_setAdd_nodup l [] List.nodup_nil

theorem foldl_setAdd_of_disjoint (l : List String) :
    ∀ (acc : List String), l.Nodup → (∀ x ∈ l, x ∉ acc) →
      l.foldl setAdd acc = acc ++ l := by
  induction l with
  | nil => intro acc _ _; simp
  | cons x xs ih =>
    intro acc hnd hdisj
    have hx : x ∉ acc := hdisj x (by simp)
    have hstep : setAdd acc x = acc ++ [x] := by simp [setAdd, hx]
    rw [List.foldl_cons, hstep, ih (acc ++ [x]) hnd.of_cons]
    · simp
    · intro y hy
      simp only [List.mem_append, List.mem_singleton]
      rintro (h | rfl)
      · exact hdisj y (by simp [hy]) h
      · exact (List.nodup_cons.mp hnd).1 hy

theorem setOfList_eq_self (l : List String) (h : l.Nodup) : setOfList l = l := by
  simpa [setOfList] using foldl_setAdd_of_disjoint l [] h (by simp)

theorem insertByKey_perm (x : String) (l : List String) :
    (insertByKey x l).Perm (x :: l) := by
  induction l with
  | nil => simp [insertByKey]
  | cons y ys ih =>
    unfold insertByKey
    by_cases h : jsNumberKey x ≤ jsNumberKey y
    · simp [if_pos h]
    · rw [if_neg h]
      exact (ih.cons y).trans (List.Perm.swap x y ys)

theorem sortTokens_perm (l : List String) : (sortTokens l).Perm l := by
  induction l with
  | nil => simp [sortTokens]
  | cons x xs ih =>
    exact (insertByKey_perm x (sortTokens xs)).trans (ih.cons x)

theorem mem_sortTokens (l : List String) (y : String) :
    y ∈ sortTokens l ↔ y ∈ l :=
  (sortTokens_perm l).mem_iff

theorem sortTokens_nodup (l : List String) (h : l.Nodup) : (sortTokens l).Nodup :=
  ((sortTokens_perm l).nodup_iff).mpr h

theorem insertByKey_pairwise (x : String) (l : List String)
    (h : l.Pairwise (fun a b => jsNumberKey a ≤ jsNumberKey b)) :
    (insertByKey x l).Pairwise (fun a b => jsNumberKey a ≤ jsNumberKey b) := by
  induction l with
  | nil => simp [insertByKey]
  | cons y ys ih =>
    unfold insertByKey
    rcases List.pairwise_cons.mp h with ⟨hy, hys⟩
    by_cases hxy : jsNumberKey x ≤ jsNumberKey y
    · rw [if_pos hxy]
      refine List.pairwise_cons.mpr ⟨?_, h⟩
      intro b hb
      rcases List.mem_cons.mp hb with rfl | hb
      · exact hxy
      · exact le_trans hxy (hy b hb)
    · rw [if_neg hxy]
      refine List.pairwise_cons.mpr ⟨?_, ih hys⟩
      intro b hb
      have hb2 := (insertByKey_perm x ys).mem_iff.mp hb
      rcases List.mem_cons.mp hb2 with rfl | hb2
      · omega
      · exact hy b hb2

theorem sortTokens_pairwise (l : List String) :
    (sortTokens l).Pairwise (fun a b => jsNumberKey a ≤ jsNumberKey b) := by
  induction l with
  | nil => simp [sortTokens]
  | cons x xs ih => exact insertByKey_pairwise x (sortTokens xs) ih

theorem insertByKey_of_le (x : String) (l : List String)
    (h : ∀ b ∈ l, jsNumberKey x ≤ jsNumberKey b) :
    insertByKey x l = x :: l := by
  cases l with
  | nil => rfl
  | cons y ys =>
    unfold insertByKey
    rw [if_pos (h y (by simp))]

theorem sortTokens_of_pairwise (l : List String)
    (h : l.Pairwise (fun a b => jsNumberKey a ≤ jsNumberKey b)) :
    sortTokens l = l := by
  induction l with
  | nil => rfl
  | cons x xs ih =>
    rcases List.pairwise_cons.mp h with ⟨hx, hxs⟩
    unfold sortTokens
    rw [ih hxs]
    exact insertByKey_of_le x xs hx

theorem cacheGet_cacheSet_self (c : Cache) (w : String) (e : Entry) :
    cacheGet (cacheSet c w e) w = some e := by
  simp [cacheGet, cacheSet, List.lookup]

/-! ### Characterization of `updateOwnedTokensForWallet` -/

theorem updateOwned_eq_err_contract (cfg : Config) (O : Oracle) (cache : Cache)
    (wallet : String) (hc : cfg.contract = "") :
    updateOwnedTokensForWallet cfg O cache wallet =
      ⟨cache, [], .error "BETTA_CONTRACT_ADDRESS not set"⟩ := by
  simp [updateOwnedTokensForWallet, hc]

theorem updateOwned_eq_err_wallet (cfg : Config) (O : Oracle) (cache : Cache)
    (wallet : String) (hc : cfg.contract ≠ "")
    (hw : isHexAddress (lowerStr (trimStr wallet)) = false) :
    updateOwnedTokensForWallet cfg O cache wallet =
      ⟨cache, [], .error "INVALID_WALLET"⟩ := by
  simp [updateOwnedTokensForWallet, hc, hw]

theorem updateOwned_eq_err_head (cfg : Config) (O : Oracle) (cache : Cache)
    (wallet : String) (e : String) (hc : cfg.contract ≠ "")
    (hw : isHexAddress (lowerStr (trimStr wallet)) = true)
    (hl : O.latestBlock = .error e) :
    updateOwnedTokensForWallet cfg O cache wallet = ⟨cache, [], .error e⟩ := by
  simp [updateOwnedTokensForWallet, hc, hw, hl]

theorem updateOwned_eq_fast (cfg : Config) (O : Oracle) (cache : Cache)
    (wallet : String) (latest : Nat) (hc : cfg.contract ≠ "")
    (hw : isHexAddress (lowerStr (trimStr wallet)) = true)
    (hl : O.latestBlock = .ok latest)
    (hfast : latest < startOf cfg
      ((cacheGet cache (lowerStr (trimStr wallet))).getD ⟨none, []⟩).lastScannedBlock) :
    updateOwnedTokensForWallet cfg O cache wallet =
      ⟨cacheSet cache (lowerStr (trimStr wallet))
          ⟨some latest, sortTokens (setOfList
            ((cacheGet cache (lowerStr (trimStr wallet))).getD ⟨none, []⟩).tokenIds)⟩,
        [],
        .ok ⟨some latest, sortTokens (setOfList
          ((cacheGet cache (lowerStr (trimStr wallet))).getD ⟨none, []⟩).tokenIds)⟩⟩ := by
  simp [updateOwnedTokensForWallet, hc, hw, hl, hfast]

theorem updateOwned_eq_scan (cfg : Config) (O : Oracle) (cache : Cache)
    (wallet : String) (latest : Nat) (hc : cfg.contract ≠ "")
    (hw : isHexAddress (lowerStr (trimStr wallet)) = true)
    (hl : O.latestBlock = .ok latest)
    (hscan : startOf cfg
      ((cacheGet cache (lowerStr (trimStr wallet))).getD ⟨none, []⟩).lastScannedBlock ≤ latest) :
    updateOwnedTokensForWallet cfg O cache wallet =
      match runChunks O (lowerStr (trimStr wallet))
          (chunkRanges cfg.logChunk
            (startOf cfg ((cacheGet cache
              (lowerStr (trimStr wallet))).getD ⟨none, []⟩).lastScannedBlock) latest)
          (setOfList ((cacheGet cache (lowerStr (trimStr wallet))).getD ⟨none, []⟩).tokenIds) with
      | (qs, .error e) => ⟨cache, qs, .error e⟩
      | (qs, .ok finalSet) =>
        ⟨cacheSet cache (lowerStr (trimStr wallet)) ⟨some latest, sortTokens finalSet⟩, qs,
          .ok ⟨some latest, sortTokens finalSet⟩⟩ := by
  have hnot : ¬ (latest < startOf cfg
      ((cacheGet cache (lowerStr (trimStr wallet))).getD ⟨none, []⟩).lastScannedBlock) := by
    omega
  simp [updateOwnedTokensForWallet, hc, hw, hl, hnot]

theorem applyAddLogs_nodup (logs : List Log) :
    ∀ (set : List String), set.Nodup → (applyAddLogs set logs).Nodup := by
  induction logs with
  | nil => intro set h; simpa [applyAddLogs]
  | cons lg rest ih =>
    intro set h
    simp only [applyAddLogs, List.foldl_cons]
    cases htid : tokenIdFromLog lg with
    | none => exact ih set h
    | some tid => exact ih (setAdd set (natToDec tid)) (setAdd_nodup set (natToDec tid) h)

theorem applyDelLogs_nodup (logs : List Log) :
    ∀ (set : List String), set.Nodup → (applyDelLogs set logs).Nodup := by
  induction logs with
  | nil => intro set h; simpa [applyDelLogs]
  | cons lg rest ih =>
    intro set h
    simp only [applyDelLogs, List.foldl_cons]
    cases htid : tokenIdFromLog lg with
    | none => exact ih set h
    | some tid => exact ih (setDelete set (natToDec tid)) (setDelete_nodup set (natToDec tid) h)

theorem runChunks_nodup (O : Oracle) (w : String) (rs : List (Nat × Nat)) :
    ∀ (set out : List String), set.Nodup → (runChunks O w rs set).2 = .ok out →
      out.Nodup := by
  induction rs with
  | nil =>
    intro set out h hout
    simp only [runChunks] at hout
    cases hout
    exact h
  | cons r rest ih =>
    intro set out h hout
    simp only [runChunks] at hout
    cases h1 : O.getLogs ⟨r.1, r.2, Dir.incoming, w⟩ with
    | error e => simp [runChunk, h1] at hout
    | ok logsTo =>
      cases h2 : O.getLogs ⟨r.1, r.2, Dir.outgoing, w⟩ with
      | error e => simp [runChunk, h1, h2] at hout
      | ok logsFrom =>
        simp only [runChunk, h1, h2] at hout
        exact ih (applyDelLogs (applyAddLogs set logsTo) logsFrom) out
          (applyDelLogs_nodup logsFrom _ (applyAddLogs_nodup logsTo set h)) hout

theorem runChunks_empty_logs (O : Oracle) (w : String)
    (hlogs : ∀ q, O.getLogs q = .ok []) (rs : List (Nat × Nat)) :
    ∀ (set : List String), (runChunks O w rs set).2 = .ok set := by
  induction rs with
  | nil => intro set; simp [runChunks]
  | cons r rest ih =>
    intro set
    simp only [runChunks, runChunk, hlogs]
    simpa [applyAddLogs, applyDelLogs] using ih set

theorem updateOwned_error_cache (cfg : Config) (O : Oracle) (cache : Cache)
    (wallet : String) (e : String)
    (h : (updateOwnedTokensForWallet cfg O cache wallet).result = .error e) :
    (updateOwnedTokensForWallet cfg O cache wallet).cache = cache := by
  by_cases hc : cfg.contract = ""
  · rw [updateOwned_eq_err_contract cfg O cache wallet hc]
  · cases hw : isHexAddress (lowerStr (trimStr wallet)) with
    | false => rw [updateOwned_eq_err_wallet cfg O cache wallet hc hw]
    | true =>
      cases hl : O.latestBlock with
      | error e2 => rw [updateOwned_eq_err_head cfg O cache wallet e2 hc hw hl]
      | ok latest =>
        by_cases hfast : latest < startOf cfg
            ((cacheGet cache (lowerStr (trimStr wallet))).getD ⟨none, []⟩).lastScannedBlock
        · rw [updateOwned_eq_fast cfg O cache wallet latest hc hw hl hfast] at h
          simp at h
        · rw [updateOwned_eq_scan cfg O cache wallet latest hc hw hl (by omega)] at h ⊢
          cases hrc : runChunks O (lowerStr (trimStr wallet))
              (chunkRanges cfg.logChunk
                (startOf cfg ((cacheGet cache
                  (lowerStr (trimStr wallet))).getD ⟨none, []⟩).lastScannedBlock) latest)
              (setOfList ((cacheGet cache
                (lowerStr (trimStr wallet))).getD ⟨none, []⟩).tokenIds) with
          | mk qs res =>
            cases res with
            | error e2 => rfl
            | ok finalSet =>
              rw [hrc] at h
              simp at h

/-! ### Claim C2: a failed refresh persists nothing -/

/-- C2: whenever `updateOwnedTokensForWallet` fails — in particular when
the chain-head query or any chunk's log fetch raises an unrecovered
error — the thrown error is propagated to the caller and the stored
cache is exactly what it was before the call, so a failed refresh is
retryable from the same prior state. The first conjunct is the
persistence guarantee for every failure; the second propagates a
chain-head failure verbatim; the third propagates the failure of the
chunk loop verbatim. -/
theorem claim_C2_failed_refresh_persists_nothing (cfg : Config) (O : Oracle)
    (cache : Cache) (wallet : String) :
    (∀ e, (updateOwnedTokensForWallet cfg O cache wallet).result = .error e →
      (updateOwnedTokensForWallet cfg O cache wallet).cache = cache) ∧
    (∀ e, cfg.contract ≠ "" → isHexAddress (lowerStr (trimStr wallet)) = true →
      O.latestBlock = .error e →
      (updateOwnedTokensForWallet cfg O cache wallet).result = .error e) ∧
    (∀ e latest, cfg.contract ≠ "" → isHexAddress (lowerStr (trimStr wallet)) = true →
      O.latestBlock = .ok latest →
      startOf cfg ((cacheGet cache
        (lowerStr (trimStr wallet))).getD ⟨none, []⟩).lastScannedBlock ≤ latest →
      (runChunks O (lowerStr (trimStr wallet))
        (chunkRanges cfg.logChunk
          (startOf cfg ((cacheGet cache
            (lowerStr (trimStr wallet))).getD ⟨none, []⟩).lastScannedBlock) latest)
        (setOfList ((cacheGet cache
          (lowerStr (trimStr wallet))).getD ⟨none, []⟩).tokenIds)).2 = .error e →
      (updateOwnedTokensForWallet cfg O cache wallet).result = .error e) := by
  refine ⟨fun e h => updateOwned_error_cache cfg O cache wallet e h, ?_, ?_⟩
  · intro e hc hw hl
    rw [updateOwned_eq_err_head cfg O cache wallet e hc hw hl]
  · intro e latest hc hw hl hscan hrc
    rw [updateOwned_eq_scan cfg O cache wallet latest hc hw hl hscan]
    cases hx : runChunks O (lowerStr (trimStr wallet))
        (chunkRanges cfg.logChunk
          (startOf cfg ((cacheGet cache
            (lowerStr (trimStr wallet))).getD ⟨none, []⟩).lastScannedBlock) latest)
        (setOfList ((cacheGet cache
          (lowerStr (trimStr wallet))).getD ⟨none, []⟩).tokenIds) with
    | mk qs res =>
      rw [hx] at hrc
      simp only at hrc
      rw [hrc]

/-- Witness for `claim_C2_failed_refresh_persists_nothing`: a failing
chain-head query propagates its error and leaves the (empty) cache
untouched. -/
theorem claim_C2_failed_refresh_persists_nothing_witness :
    (updateOwnedTokensForWallet cfgWide oracleHeadDown [] walletA).result =
      .error "boom" ∧
    (updateOwnedTokensForWallet cfgWide oracleHeadDown [] walletA).cache = [] := by
  have h := claim_C2_failed_refresh_persists_nothing cfgWide oracleHeadDown [] walletA
  have hr := h.2.1 "boom" (by decide) (by decide) rfl
  exact ⟨hr, h.1 "boom" hr⟩

/-! ### Claim C3: the scan start and the nothing-to-scan fast path -/

/-- C3: the scan start is `max(START_BLOCK, lastScannedBlock + 1)`, with
`START_BLOCK` alone when the wallet was never scanned; and whenever the
start exceeds the chain head, the call issues no log queries, returns
an entry whose `lastScannedBlock` is the head and whose token set is
the prior set unchanged (as a set of token-id strings), and persists
exactly that entry for the wallet. The wallet is taken in its
normalized (trimmed, lowercased) form, as the function itself
normalizes before any use. -/
theorem claim_C3_start_block_fast_path (cfg : Config) (O : Oracle) (cache : Cache)
    (wallet : String) (latest : Nat)
    (hnorm : lowerStr (trimStr wallet) = wallet)
    (hc : cfg.contract ≠ "")
    (hw : isHexAddress wallet = true)
    (hl : O.latestBlock = .ok latest) :
    (∀ prev, startOf cfg (some prev) = max cfg.startBlock (prev + 1)) ∧
    startOf cfg none = cfg.startBlock ∧
    (latest < startOf cfg ((cacheGet cache wallet).getD ⟨none, []⟩).lastScannedBlock →
      (updateOwnedTokensForWallet cfg O cache wallet).queries = [] ∧
      (updateOwnedTokensForWallet cfg O cache wallet).result =
        .ok ⟨some latest,
          sortTokens (setOfList ((cacheGet cache wallet).getD ⟨none, []⟩).tokenIds)⟩ ∧
      cacheGet (updateOwnedTokensForWallet cfg O cache wallet).cache wallet =
        some ⟨some latest,
          sortTokens (setOfList ((cacheGet cache wallet).getD ⟨none, []⟩).tokenIds)⟩ ∧
      (∀ x, x ∈ sortTokens (setOfList ((cacheGet cache wallet).getD ⟨none, []⟩).tokenIds) ↔
        x ∈ ((cacheGet cache wallet).getD ⟨none, []⟩).tokenIds)) := by
  refine ⟨?_, rfl, ?_⟩
  · intro prev
    simp only [startOf]
    by_cases h : prev + 1 > cfg.startBlock
    · rw [if_pos h, Nat.max_eq_right (by omega)]
    · rw [if_neg h, Nat.max_eq_left (by omega)]
  · intro hfast
    have heq := updateOwned_eq_fast cfg O cache wallet latest hc
      (by rwa [hnorm]) hl (by rwa [hnorm])
    rw [hnorm] at heq
    rw [heq]
    refine ⟨rfl, rfl, cacheGet_cacheSet_self cache wallet _, ?_⟩
    intro x
    rw [mem_sortTokens, mem_setOfList]

/-- Witness for `claim_C3_start_block_fast_path`: a wallet whose
checkpoint is already past the head is returned unchanged with the head
recorded and no queries issued. -/
theorem claim_C3_start_block_fast_path_witness :
    startOf cfgWide (some 100) = max 1 101 ∧
    (updateOwnedTokensForWallet cfgWide (oracleHead 50) cacheBigIds walletA).queries = [] := by
  have h := claim_C3_start_block_fast_path cfgWide (oracleHead 50) cacheBigIds walletA 50
    (by decide) (by decide) (by decide) rfl
  refine ⟨h.1 100, (h.2.2 (by decide)).1⟩

/-! ### Claim C5: `lastScannedBlock` lifecycle -/

/-- C5 counterexample: two successful refresh calls in sequence during
which the observed chain head regresses (as can happen across rotated,
out-of-sync RPC endpoints). The first call stores
`lastScannedBlock = 100`; the second succeeds through the
nothing-to-scan fast path and stores `lastScannedBlock = 50 < 100`, so
the stored value is not monotonically non-decreasing across successful
calls. -/
theorem claim_C5_counterexample :
    (updateOwnedTokensForWallet cfgWide (oracleHead 100) [] walletA).result =
      .ok ⟨some 100, []⟩ ∧
    (updateOwnedTokensForWallet cfgWide (oracleHead 50)
      (updateOwnedTokensForWallet cfgWide (oracleHead 100) [] walletA).cache
      walletA).result = .ok ⟨some 50, []⟩ ∧
    50 < 100 := by
  decide

/-- C5 amended: `lastScannedBlock` is null exactly until the first
successful scan — a successful refresh always stores the chain head it
observed (a non-null value) as the wallet's `lastScannedBlock`, and a
failed refresh leaves the cache untouched. Consequently the stored
value is non-decreasing across successful calls whenever each observed
chain head is at least the previously stored block, but a head observed
behind the stored checkpoint is written back verbatim (see the
counterexample). -/
theorem claim_C5_amended (cfg : Config) (O : Oracle) (cache : Cache) (wallet : String) :
    (∀ latest e, O.latestBlock = .ok latest →
      (updateOwnedTokensForWallet cfg O cache wallet).result = .ok e →
      e.lastScannedBlock = some latest ∧
      cacheGet (updateOwnedTokensForWallet cfg O cache wallet).cache
        (lowerStr (trimStr wallet)) = some e) ∧
    (∀ e, (updateOwnedTokensForWallet cfg O cache wallet).result = .error e →
      (updateOwnedTokensForWallet cfg O cache wallet).cache = cache) := by
  constructor
  · intro latest e hl hok
    by_cases hc : cfg.contract = ""
    · rw [updateOwned_eq_err_contract cfg O cache wallet hc] at hok
      simp at hok
    · cases hw : isHexAddress (lowerStr (trimStr wallet)) with
      | false =>
        rw [updateOwned_eq_err_wallet cfg O cache wallet hc hw] at hok
        simp at hok
      | true =>
        by_cases hfast : latest < startOf cfg
            ((cacheGet cache (lowerStr (trimStr wallet))).getD ⟨none, []⟩).lastScannedBlock
        · have heq := updateOwned_eq_fast cfg O cache wallet latest hc hw hl hfast
          rw [heq] at hok
          simp only [Except.ok.injEq] at hok
          subst hok
          rw [heq]
          exact ⟨rfl, cacheGet_cacheSet_self cache (lowerStr (trimStr wallet)) _⟩
        · have heq := updateOwned_eq_scan cfg O cache wallet latest hc hw hl (by omega)
          rw [heq] at hok
          rw [heq]
          cases hx : runChunks O (lowerStr (trimStr wallet))
              (chunkRanges cfg.logChunk
                (startOf cfg ((cacheGet cache
                  (lowerStr (trimStr wallet))).getD ⟨none, []⟩).lastScannedBlock) latest)
              (setOfList ((cacheGet cache
                (lowerStr (trimStr wallet))).getD ⟨none, []⟩).tokenIds) with
          | mk qs res =>
            rw [hx] at hok
            cases res with
            | error e2 => simp at hok
            | ok finalSet =>
              simp only [Except.ok.injEq] at hok
              subst hok
              exact ⟨rfl, cacheGet_cacheSet_self cache (lowerStr (trimStr wallet)) _⟩
  · exact fun e h => updateOwned_error_cache cfg O cache wallet e h

/-- Witness for `claim_C5_amended`: a successful scan stores the
observed head. -/
theorem claim_C5_amended_witness :
    (⟨some 100, []⟩ : Entry).lastScannedBlock = some 100 ∧
    cacheGet (updateOwnedTokensForWallet cfgWide (oracleHead 100) [] walletA).cache
      (lowerStr (trimStr walletA)) = some ⟨some 100, []⟩ :=
  (claim_C5_amended cfgWide (oracleHead 100) [] walletA).1 100 ⟨some 100, []⟩ rfl (by decide)

/-! ### Claim C7: idempotence when no new events exist -/

theorem updateOwned_ok_shape (cfg : Config) (O : Oracle) (cache : Cache)
    (wallet : String) (e : Entry)
    (hok : (updateOwnedTokensForWallet cfg O cache wallet).result = .ok e) :
    cfg.contract ≠ "" ∧
    isHexAddress (lowerStr (trimStr wallet)) = true ∧
    cacheGet (updateOwnedTokensForWallet cfg O cache wallet).cache
      (lowerStr (trimStr wallet)) = some e ∧
    ∃ latest S, O.latestBlock = .ok latest ∧ S.Nodup ∧
      e = ⟨some latest, sortTokens S⟩ := by
  by_cases hc : cfg.contract = ""
  · rw [updateOwned_eq_err_contract cfg O cache wallet hc] at hok
    simp at hok
  · cases hw : isHexAddress (lowerStr (trimStr wallet)) with
    | false =>
      rw [updateOwned_eq_err_wallet cfg O cache wallet hc hw] at hok
      simp at hok
    | true =>
      cases hl : O.latestBlock with
      | error e2 =>
        rw [updateOwned_eq_err_head cfg O cache wallet e2 hc hw hl] at hok
        simp at hok
      | ok latest =>
        refine ⟨hc, rfl, ?_⟩
        by_cases hfast : latest < startOf cfg
            ((cacheGet cache (lowerStr (trimStr wallet))).getD ⟨none, []⟩).lastScannedBlock
        · have heq := updateOwned_eq_fast cfg O cache wallet latest hc hw hl hfast
          rw [heq] at hok
          simp only [Except.ok.injEq] at hok
          subst hok
          rw [heq]
          exact ⟨cacheGet_cacheSet_self cache (lowerStr (trimStr wallet)) _,
            latest, _, rfl, setOfList_nodup _, rfl⟩
        · have heq := updateOwned_eq_scan cfg O cache wallet latest hc hw hl (by omega)
          rw [heq] at hok
          rw [heq]
          cases hx : runChunks O (lowerStr (trimStr wallet))
              (chunkRanges cfg.logChunk
                (startOf cfg ((cacheGet cache
                  (lowerStr (trimStr wallet))).getD ⟨none, []⟩).lastScannedBlock) latest)
              (setOfList ((cacheGet cache
                (lowerStr (trimStr wallet))).getD ⟨none, []⟩).tokenIds) with
          | mk qs res =>
            rw [hx] at hok
            cases res with
            | error e2 => simp at hok
            | ok finalSet =>
              simp only [Except.ok.injEq] at hok
              subst hok
              refine ⟨cacheGet_cacheSet_self cache (lowerStr (trimStr wallet)) _,
                latest, finalSet, rfl, ?_, rfl⟩
              have hx2 : (runChunks O (lowerStr (trimStr wallet))
                  (chunkRanges cfg.logChunk
                    (startOf cfg ((cacheGet cache
                      (lowerStr (trimStr wallet))).getD ⟨none, []⟩).lastScannedBlock) latest)
                  (setOfList ((cacheGet cache
                    (lowerStr (trimStr wallet))).getD ⟨none, []⟩).tokenIds)).2 =
                  .ok finalSet := by
                rw [hx]
              exact runChunks_nodup O (lowerStr (trimStr wallet)) _ _ finalSet
                (setOfList_nodup _) hx2

/-- C7: if a refresh for a wallet succeeds and then a second refresh
runs while no transfer events exist for it (every log query of the
second call answers with no events), the second call succeeds and
returns exactly the same `tokenIds` list, with `lastScannedBlock` equal
to the chain head observed by the second call. -/
theorem claim_C7_idempotent_no_new_events (cfg : Config) (O1 O2 : Oracle)
    (cache : Cache) (wallet : String) (e1 : Entry) (b2 : Nat)
    (h1 : (updateOwnedTokensForWallet cfg O1 cache wallet).result = .ok e1)
    (h2head : O2.latestBlock = .ok b2)
    (h2logs : ∀ q, O2.getLogs q = .ok []) :
    (updateOwnedTokensForWallet cfg O2
      (updateOwnedTokensForWallet cfg O1 cache wallet).cache wallet).result =
      .ok ⟨some b2, e1.tokenIds⟩ := by
  obtain ⟨hc, hw, hstored, latest1, S, _, hSnd, hE⟩ :=
    updateOwned_ok_shape cfg O1 cache wallet e1 h1
  have htok : e1.tokenIds = sortTokens S := by rw [hE]
  have htnd : e1.tokenIds.Nodup := by rw [htok]; exact sortTokens_nodup S hSnd
  have htpw : e1.tokenIds.Pairwise (fun a b => jsNumberKey a ≤ jsNumberKey b) := by
    rw [htok]; exact sortTokens_pairwise S
  have hset : setOfList e1.tokenIds = e1.tokenIds := setOfList_eq_self e1.tokenIds htnd
  have hsort : sortTokens e1.tokenIds = e1.tokenIds := sortTokens_of_pairwise e1.tokenIds htpw
  have hentry : ((cacheGet (updateOwnedTokensForWallet cfg O1 cache wallet).cache
      (lowerStr (trimStr wallet))).getD ⟨none, []⟩) = e1 := by
    rw [hstored]; rfl
  by_cases hfast : b2 < startOf cfg
      ((cacheGet (updateOwnedTokensForWallet cfg O1 cache wallet).cache
        (lowerStr (trimStr wallet))).getD ⟨none, []⟩).lastScannedBlock
  · rw [updateOwned_eq_fast cfg O2 _ wallet b2 hc hw h2head hfast]
    rw [hentry, hset, hsort]
  · rw [updateOwned_eq_scan cfg O2 _ wallet b2 hc hw h2head (by omega)]
    cases hx : runChunks O2 (lowerStr (trimStr wallet))
        (chunkRanges cfg.logChunk
          (startOf cfg ((cacheGet (updateOwnedTokensForWallet cfg O1 cache wallet).cache
            (lowerStr (trimStr wallet))).getD ⟨none, []⟩).lastScannedBlock) b2)
        (setOfList ((cacheGet (updateOwnedTokensForWallet cfg O1 cache wallet).cache
          (lowerStr (trimStr wallet))).getD ⟨none, []⟩).tokenIds) with
    | mk qs res =>
      have hres : res = .ok (setOfList ((cacheGet
          (updateOwnedTokensForWallet cfg O1 cache wallet).cache
          (lowerStr (trimStr wallet))).getD ⟨none, []⟩).tokenIds) := by
        have := runChunks_empty_logs O2 (lowerStr (trimStr wallet)) h2logs
          (chunkRanges cfg.logChunk
            (startOf cfg ((cacheGet (updateOwnedTokensForWallet cfg O1 cache wallet).cache
              (lowerStr (trimStr wallet))).getD ⟨none, []⟩).lastScannedBlock) b2)
          (setOfList ((cacheGet (updateOwnedTokensForWallet cfg O1 cache wallet).cache
            (lowerStr (trimStr wallet))).getD ⟨none, []⟩).tokenIds)
        rw [hx] at this
        exact this
      rw [hres]
      simp only
      rw [hentry, hset, hsort]

/-- Witness for `claim_C7_idempotent_no_new_events`: a first scan at
head 5 with no events, then a second call at head 9 with no events,
returns the same (empty) token list with the new head recorded. -/
theorem claim_C7_idempotent_no_new_events_witness :
    (updateOwnedTokensForWallet cfgWide (oracleHead 9)
      (updateOwnedTokensForWallet cfgWide (oracleHead 5) [] walletA).cache
      walletA).result = .ok ⟨some 9, []⟩ :=
  claim_C7_idempotent_no_new_events cfgWide (oracleHead 5) (oracleHead 9) [] walletA
    ⟨some 5, []⟩ 9 (by decide) rfl (fun q => rfl)

/-! ### Claim C8: malformed log records are dropped, not fatal -/

theorem applyAddLogs_skip (set : List String) (l1 l2 : List Log) (bad : Log)
    (hbad : tokenIdFromLog bad = none) :
    applyAddLogs set (l1 ++ bad :: l2) = applyAddLogs set (l1 ++ l2) := by
  simp [applyAddLogs, List.foldl_append, List.foldl_cons, hbad]

theorem applyDelLogs_skip (set : List String) (l1 l2 : List Log) (bad : Log)
    (hbad : tokenIdFromLog bad = none) :
    applyDelLogs set (l1 ++ bad :: l2) = applyDelLogs set (l1 ++ l2) := by
  simp [applyDelLogs, List.foldl_append, List.foldl_cons, hbad]

theorem runChunk_congr (O O' : Oracle) (w : String) (q0 : Query) (bad : Log)
    (l1 l2 : List Log) (hbad : tokenIdFromLog bad = none)
    (hsame : ∀ q, q ≠ q0 → O'.getLogs q = O.getLogs q)
    (h0 : O.getLogs q0 = .ok (l1 ++ l2))
    (h0' : O'.getLogs q0 = .ok (l1 ++ bad :: l2)) :
    ∀ (r : Nat × Nat) (set : List String), runChunk O' w r set = runChunk O w r set := by
  intro r set
  unfold runChunk
  by_cases hq1 : (⟨r.1, r.2, Dir.incoming, w⟩ : Query) = q0
  · have hq2 : (⟨r.1, r.2, Dir.outgoing, w⟩ : Query) ≠ q0 := by
      rw [← hq1]
      intro hcon
      exact Dir.noConfusion (congrArg Query.dir hcon)
    rw [hq1, h0, h0', hsame _ hq2]
    cases hg : O.getLogs ⟨r.1, r.2, Dir.outgoing, w⟩ with
    | error e => simp [← hq1]
    | ok logsFrom => simp [← hq1, applyAddLogs_skip set l1 l2 bad hbad]
  · rw [hsame _ hq1]
    cases hg1 : O.getLogs ⟨r.1, r.2, Dir.incoming, w⟩ with
    | error e => rfl
    | ok logsTo =>
      by_cases hq2 : (⟨r.1, r.2, Dir.outgoing, w⟩ : Query) = q0
      · rw [hq2, h0, h0']
        simp [← hq2, applyDelLogs_skip (applyAddLogs set logsTo) l1 l2 bad hbad]
      · rw [hsame _ hq2]

theorem runChunks_congr (O O' : Oracle) (w : String)
    (hchunk : ∀ (r : Nat × Nat) (set : List String),
      runChunk O' w r set = runChunk O w r set) :
    ∀ (rs : List (Nat × Nat)) (set : List String),
      runChunks O' w rs set = runChunks O w rs set := by
  intro rs
  induction rs with
  | nil => intro set; rfl
  | cons r rest ih =>
    intro set
    simp only [runChunks, hchunk r set]
    cases hx : runChunk O w r set with
    | mk qs res =>
      cases res with
      | error e => rfl
      | ok set1 => simp only [ih set1]

/-- C8: a log record whose token-identifier topic is missing or not
parseable does not raise and contributes nothing: a call against an
oracle whose response to one query contains such a malformed record, in
any position, produces exactly the same cache, queries and result as
the call against the same oracle with the malformed record removed —
the scan completes and every well-formed event in the range is still
applied. -/
theorem claim_C8_malformed_log_skipped (cfg : Config) (cache : Cache)
    (wallet : String) (O O' : Oracle) (q0 : Query) (bad : Log) (l1 l2 : List Log)
    (hbad : tokenIdFromLog bad = none)
    (hhead : O'.latestBlock = O.latestBlock)
    (hsame : ∀ q, q ≠ q0 → O'.getLogs q = O.getLogs q)
    (h0 : O.getLogs q0 = .ok (l1 ++ l2))
    (h0' : O'.getLogs q0 = .ok (l1 ++ bad :: l2)) :
    updateOwnedTokensForWallet cfg O' cache wallet =
      updateOwnedTokensForWallet cfg O cache wallet := by
  have hrc := runChunks_congr O O' (lowerStr (trimStr wallet))
    (runChunk_congr O O' (lowerStr (trimStr wallet)) q0 bad l1 l2 hbad hsame h0 h0')
  by_cases hc : cfg.contract = ""
  · rw [updateOwned_eq_err_contract cfg O cache wallet hc,
      updateOwned_eq_err_contract cfg O' cache wallet hc]
  · cases hw : isHexAddress (lowerStr (trimStr wallet)) with
    | false =>
      rw [updateOwned_eq_err_wallet cfg O cache wallet hc hw,
        updateOwned_eq_err_wallet cfg O' cache wallet hc hw]
    | true =>
      cases hl : O.latestBlock with
      | error e =>
        rw [updateOwned_eq_err_head cfg O cache wallet e hc hw hl,
          updateOwned_eq_err_head cfg O' cache wallet e hc hw (by rw [hhead, hl])]
      | ok latest =>
        by_cases hfast : latest < startOf cfg
            ((cacheGet cache (lowerStr (trimStr wallet))).getD ⟨none, []⟩).lastScannedBlock
        · rw [updateOwned_eq_fast cfg O cache wallet latest hc hw hl hfast,
            updateOwned_eq_fast cfg O' cache wallet latest hc hw (by rw [hhead, hl]) hfast]
        · rw [updateOwned_eq_scan cfg O cache wallet latest hc hw hl (by omega),
            updateOwned_eq_scan cfg O' cache wallet latest hc hw (by rw [hhead, hl]) (by omega),
            hrc]

/-- Witness for `claim_C8_malformed_log_skipped`: an oracle answering
one query with a single malformed record (missing `topics[3]`) yields
exactly the run of the clean oracle. -/
theorem claim_C8_malformed_log_skipped_witness :
    updateOwnedTokensForWallet cfgWide oracleWithBadLog [] walletA =
      updateOwnedTokensForWallet cfgWide oracleClean [] walletA :=
  claim_C8_malformed_log_skipped cfgWide [] walletA oracleClean oracleWithBadLog
    queryC8 ⟨none⟩ [] [] rfl rfl
    (fun q hq => by simp [oracleWithBadLog, oracleClean, hq])
    rfl
    (by simp [oracleWithBadLog])

/-! ### Claim C9: arbitrary-precision ids and the sort order -/

/-- C9 counterexample: two distinct token ids just above `2 ^ 53` whose
IEEE-754 doubles coincide, cached in descending numeric order. The
refresh succeeds and returns them still out of ascending numeric order:
the comparator `Number(a) - Number(b)` sees both as equal and the
stable sort keeps the stored order, so the persisted `tokenIds`
sequence is not sorted ascending for ids above `2 ^ 53`. -/
theorem claim_C9_counterexample :
    (updateOwnedTokensForWallet cfgWide (oracleHead 50) cacheBigIds walletA).result =
      .ok ⟨some 50, ["9007199254740993", "9007199254740992"]⟩ ∧
    ¬ (["9007199254740993", "9007199254740992"].Pairwise
        (fun a b => (decDigits a.data 0).getD 0 ≤ (decDigits b.data 0).getD 0)) := by
  decide

theorem mem_applyAddLogs (logs : List Log) :
    ∀ (set : List String) (x : String), x ∈ applyAddLogs set logs →
      x ∈ set ∨ ∃ lg ∈ logs, ∃ tid, tokenIdFromLog lg = some tid ∧ x = natToDec tid := by
  induction logs with
  | nil => intro set x hx; exact Or.inl hx
  | cons lg rest ih =>
    intro set x hx
    simp only [applyAddLogs, List.foldl_cons] at hx
    cases htid : tokenIdFromLog lg with
    | none =>
      rw [htid] at hx
      rcases ih set x hx with h | ⟨lg2, hlg2, tid, htid2, hxv⟩
      · exact Or.inl h
      · exact Or.inr ⟨lg2, by simp [hlg2], tid, htid2, hxv⟩
    | some tid =>
      rw [htid] at hx
      rcases ih (setAdd set (natToDec tid)) x hx with h | ⟨lg2, hlg2, tid2, htid2, hxv⟩
      · rcases (mem_setAdd set (natToDec tid) x).mp h with h2 | h2
        · exact Or.inl h2
        · exact Or.inr ⟨lg, by simp, tid, htid, h2⟩
      · exact Or.inr ⟨lg2, by simp [hlg2], tid2, htid2, hxv⟩

theorem mem_applyDelLogs (logs : List Log) :
    ∀ (set : List String) (x : String), x ∈ applyDelLogs set logs → x ∈ set := by
  induction logs with
  | nil => intro set x hx; exact hx
  | cons lg rest ih =>
    intro set x hx
    simp only [applyDelLogs, List.foldl_cons] at hx
    cases htid : tokenIdFromLog lg with
    | none => rw [htid] at hx; exact ih set x hx
    | some tid =>
      rw [htid] at hx
      exact ((mem_setDelete set (natToDec tid) x).mp
        (ih (setDelete set (natToDec tid)) x hx)).1

theorem runChunks_provenance (O : Oracle) (w : String) (rs : List (Nat × Nat)) :
    ∀ (set out : List String) (x : String),
      (runChunks O w rs set).2 = .ok out → x ∈ out →
      x ∈ set ∨ ∃ q logs, O.getLogs q = .ok logs ∧
        ∃ lg ∈ logs, ∃ tid, tokenIdFromLog lg = some tid ∧ x = natToDec tid := by
  induction rs with
  | nil =>
    intro set out x hout hx
    simp only [runChunks] at hout
    cases hout
    exact Or.inl hx
  | cons r rest ih =>
    intro set out x hout hx
    simp only [runChunks] at hout
    cases h1 : O.getLogs ⟨r.1, r.2, Dir.incoming, w⟩ with
    | error e => simp [runChunk, h1] at hout
    | ok logsTo =>
      cases h2 : O.getLogs ⟨r.1, r.2, Dir.outgoing, w⟩ with
      | error e => simp [runChunk, h1, h2] at hout
      | ok logsFrom =>
        simp only [runChunk, h1, h2] at hout
        rcases ih (applyDelLogs (applyAddLogs set logsTo) logsFrom) out x hout hx with
          h | ⟨q, logs, hq, hrest⟩
        · have h3 := mem_applyDelLogs logsFrom (applyAddLogs set logsTo) x h
          rcases mem_applyAddLogs logsTo set x h3 with h4 | ⟨lg, hlg, tid, htid, hxv⟩
          · exact Or.inl h4
          · exact Or.inr ⟨⟨r.1, r.2, Dir.incoming, w⟩, logsTo, h1, lg, hlg, tid, htid, hxv⟩
        · exact Or.inr ⟨q, logs, hq, hrest⟩

theorem floatRound_small (n : Nat) (h : n < 2 ^ 53) : floatRound n = n := by
  unfold floatRound
  rw [if_pos h]

/-- C9 amended: token ids are carried exactly — every id string in a
successful result is either one of the previously stored id strings or
the exact decimal printing of a token id parsed (as a `BigInt`) from a
log record, with no rounding anywhere; the returned sequence is sorted
ascending by the IEEE-754 double value of each id, which coincides with
ascending numeric order whenever all ids are below `2 ^ 53`; above
`2 ^ 53`, ids whose doubles coincide keep their stored order, which
need not be numerically ascending (see the counterexample). -/
theorem claim_C9_amended (cfg : Config) (O : Oracle) (cache : Cache)
    (wallet : String) (e : Entry)
    (hok : (updateOwnedTokensForWallet cfg O cache wallet).result = .ok e) :
    (∀ x ∈ e.tokenIds,
      x ∈ ((cacheGet cache (lowerStr (trimStr wallet))).getD ⟨none, []⟩).tokenIds ∨
      ∃ q logs, O.getLogs q = .ok logs ∧
        ∃ lg ∈ logs, ∃ tid, tokenIdFromLog lg = some tid ∧ x = natToDec tid) ∧
    e.tokenIds.Pairwise (fun a b => jsNumberKey a ≤ jsNumberKey b) ∧
    ((∀ s ∈ e.tokenIds, ∃ n, decDigits s.data 0 = some n ∧ n < 2 ^ 53) →
      e.tokenIds.Pairwise
        (fun a b => (decDigits a.data 0).getD 0 ≤ (decDigits b.data 0).getD 0)) := by
  have hkey : e.tokenIds.Pairwise (fun a b => jsNumberKey a ≤ jsNumberKey b) →
      (∀ s ∈ e.tokenIds, ∃ n, decDigits s.data 0 = some n ∧ n < 2 ^ 53) →
      e.tokenIds.Pairwise
        (fun a b => (decDigits a.data 0).getD 0 ≤ (decDigits b.data 0).getD 0) := by
    intro hpw hsmall
    refine hpw.imp_of_mem ?_
    intro a b ha hb hab
    obtain ⟨na, hna, hna53⟩ := hsmall a ha
    obtain ⟨nb, hnb, hnb53⟩ := hsmall b hb
    rw [hna, hnb]
    simp only [Option.getD_some]
    have hka : jsNumberKey a = na := by
      simp [jsNumberKey, hna, floatRound_small na hna53]
    have hkb : jsNumberKey b = nb := by
      simp [jsNumberKey, hnb, floatRound_small nb hnb53]
    rw [hka, hkb] at hab
    exact hab
  by_cases hc : cfg.contract = ""
  · rw [updateOwned_eq_err_contract cfg O cache wallet hc] at hok
    simp at hok
  · cases hw : isHexAddress (lowerStr (trimStr wallet)) with
    | false =>
      rw [updateOwned_eq_err_wallet cfg O cache wallet hc hw] at hok
      simp at hok
    | true =>
      cases hl : O.latestBlock with
      | error e2 =>
        rw [updateOwned_eq_err_head cfg O cache wallet e2 hc hw hl] at hok
        simp at hok
      | ok latest =>
        by_cases hfast : latest < startOf cfg
            ((cacheGet cache (lowerStr (trimStr wallet))).getD ⟨none, []⟩).lastScannedBlock
        · rw [updateOwned_eq_fast cfg O cache wallet latest hc hw hl hfast] at hok
          simp only [Except.ok.injEq] at hok
          subst hok
          refine ⟨?_, sortTokens_pairwise _, hkey (sortTokens_pairwise _)⟩
          intro x hx
          rw [mem_sortTokens, mem_setOfList] at hx
          exact Or.inl hx
        · rw [updateOwned_eq_scan cfg O cache wallet latest hc hw hl (by omega)] at hok
          cases hx : runChunks O (lowerStr (trimStr wallet))
              (chunkRanges cfg.logChunk
                (startOf cfg ((cacheGet cache
                  (lowerStr (trimStr wallet))).getD ⟨none, []⟩).lastScannedBlock) latest)
              (setOfList ((cacheGet cache
                (lowerStr (trimStr wallet))).getD ⟨none, []⟩).tokenIds) with
          | mk qs res =>
            rw [hx] at hok
            cases res with
            | error e2 => simp at hok
            | ok finalSet =>
              simp only [Except.ok.injEq] at hok
              subst hok
              refine ⟨?_, sortTokens_pairwise _, hkey (sortTokens_pairwise _)⟩
              intro x hxmem
              rw [mem_sortTokens] at hxmem
              have hres : (runChunks O (lowerStr (trimStr wallet))
                  (chunkRanges cfg.logChunk
                    (startOf cfg ((cacheGet cache
                      (lowerStr (trimStr wallet))).getD ⟨none, []⟩).lastScannedBlock) latest)
                  (setOfList ((cacheGet cache
                    (lowerStr (trimStr wallet))).getD ⟨none, []⟩).tokenIds)).2 =
                  .ok finalSet := by rw [hx]
              rcases runChunks_provenance O (lowerStr (trimStr wallet)) _ _ finalSet x
                  hres hxmem with h | h
              · rw [mem_setOfList] at h
                exact Or.inl h
              · exact Or.inr h

/-- Witness for `claim_C9_amended` at a successful concrete scan. -/
theorem claim_C9_amended_witness :
    (∀ x ∈ (Entry.mk (some 25) ["7"]).tokenIds,
      x ∈ ((cacheGet ([] : Cache) (lowerStr (trimStr walletA))).getD ⟨none, []⟩).tokenIds ∨
      ∃ q logs, (chainOracle chainOutThenIn 25).getLogs q = .ok logs ∧
        ∃ lg ∈ logs, ∃ tid, tokenIdFromLog lg = some tid ∧ x = natToDec tid) ∧
    (Entry.mk (some 25) ["7"]).tokenIds.Pairwise
      (fun a b => jsNumberKey a ≤ jsNumberKey b) ∧
    ((∀ s ∈ (Entry.mk (some 25) ["7"]).tokenIds,
        ∃ n, decDigits s.data 0 = some n ∧ n < 2 ^ 53) →
      (Entry.mk (some 25) ["7"]).tokenIds.Pairwise
        (fun a b => (decDigits a.data 0).getD 0 ≤ (decDigits b.data 0).getD 0)) :=
  claim_C9_amended cfgNarrow (chainOracle chainOutThenIn 25) [] walletA
    ⟨some 25, ["7"]⟩ (by decide)

/-! ### Claim C10: the `/owned` cached fast path -/

/-- C10: with a valid wallet and a configured contract, the cached fast
path is taken exactly when a cached entry exists for the wallet and its
`tokenIds` list is non-empty; in that case the stored checkpoint is
returned as-is (`cached: true`) with the cache untouched and no refresh
performed, while an absent entry or an empty cached token list makes
the handler run the refresh tail on every call. The query wallet is
taken in its normalized (trimmed, lowercased) form, as the handler
itself normalizes before any use. -/
theorem claim_C10_cached_fast_path (cfg : Config) (O : Oracle) (cache : Cache)
    (q : String)
    (hnorm : lowerStr (trimStr q) = q)
    (hw : isHexAddress q = true)
    (hc : cfg.contract ≠ "") :
    (∀ c, cacheGet cache q = some c → c.tokenIds ≠ [] →
      ownedRoute cfg O cache q = (cache, .cachedHit c.tokenIds c.lastScannedBlock)) ∧
    (∀ c, cacheGet cache q = some c → c.tokenIds = [] →
      ownedRoute cfg O cache q = ownedRefresh cfg O cache q) ∧
    (cacheGet cache q = none →
      ownedRoute cfg O cache q = ownedRefresh cfg O cache q) := by
  refine ⟨?_, ?_, ?_⟩
  · intro c hcg hne
    have hlen : 0 < c.tokenIds.length := List.length_pos.mpr hne
    simp [ownedRoute, hnorm, hw, hc, hcg, hlen]
  · intro c hcg he
    simp [ownedRoute, hnorm, hw, hc, hcg, he]
  · intro hcg
    simp [ownedRoute, hnorm, hw, hc, hcg]

/-- Witness for `claim_C10_cached_fast_path`: a wallet with a non-empty
cached token list is answered from the cache as stored. -/
theorem claim_C10_cached_fast_path_witness :
    ownedRoute cfgWide (oracleHead 50) cacheBigIds walletA =
      (cacheBigIds, .cachedHit ["9007199254740993", "9007199254740992"] (some 100)) :=
  (claim_C10_cached_fast_path cfgWide (oracleHead 50) cacheBigIds walletA
    (by decide) (by decide) (by decide)).1
    ⟨some 100, ["9007199254740993", "9007199254740992"]⟩ (by decide) (by decide)

/-! ### Claim C1: per-chunk add-then-remove versus block order -/

/-- C1: the final membership computed by the scan loop is NOT invariant
under the partition into chunks, and per-chunk add-then-remove does NOT
match applying events one at a time in block order. With the history
`chainOutThenIn` (token 7 minted to the wallet at block 5, sent away at
block 10, bought back at block 20) and head 25: scanning with one chunk
covering blocks 1-100 yields the empty set (all incoming adds of token
7 are applied before the block-10 outgoing remove, so the remove always
wins inside a chunk), while scanning the same range split at block 15
yields `{7}`, as does the specification's block-order fold, under which
the last event touching token 7 (the incoming transfer at block 20)
wins. The code therefore corrupts membership whenever a token leaves
and re-enters the wallet inside one chunk window. -/
theorem claim_C1_chunk_vs_block_order :
    (updateOwnedTokensForWallet cfgWide (chainOracle chainOutThenIn 25) [] walletA).result =
      .ok ⟨some 25, []⟩ ∧
    (updateOwnedTokensForWallet cfgNarrow (chainOracle chainOutThenIn 25) [] walletA).result =
      .ok ⟨some 25, ["7"]⟩ ∧
    specBlockOrderFold walletA [] chainOutThenIn = ["7"] := by
  decide
